import Mathlib

/-!
Shallow embedding of the diecast-git plugin (src/src/lib.rs).

The plugin resolves, for each item of a bind, the most recent commit (walking
backward from a configured revision) that touched the item's source path, and
attaches a shared `Arc<LastCommit>` record to the item's extensions.

The git2 library (repository discovery, revision walking, commit/tree/diff
access, pathspec compilation and matching) is modelled as an explicit
environment `Env` of oracles; the handler's own control flow
(`GitCommit::handle`) is translated statement by statement.  Rust `Result` is
`Except`, `try!` is explicit error propagation, and `.unwrap()` on a failing
value is modelled as the distinguished outcome `Outcome.panicked`.  Item
sources are modelled as always-present UTF-8 strings (the `item.source()` and
`to_str()` unwraps at the registration boundary are outside the resolver
logic the spec describes).  An event trace records the observable actions of
one call: commit fetches, match-target constructions, metadata extractions
and attachments.
-/

namespace DiecastGit

/-- Commit identity (`git2::Oid`), abstracted to a natural number. -/
abbrev Oid := Nat

/-- `git2::Time`: author time as seconds since epoch plus a UTC offset. -/
structure Time where
  seconds : Int
  offset : Int
deriving DecidableEq, Repr

/-- Opaque handle for a `git2::Tree` snapshot. -/
structure Tree where
  tid : Nat
deriving DecidableEq, Repr

/-- Opaque handle for a `git2::Diff` between two trees. -/
structure Diff where
  did : Nat
deriving DecidableEq, Repr

/-- A commit object: id, ordered parent ids, summary (none models a summary
that is not valid UTF-8, for which `git2::Commit::summary` returns `None`),
and author time. -/
structure Commit where
  cid : Oid
  parents : List Oid
  summary : Option String
  time : Time
deriving DecidableEq, Repr

/-- Errors produced by the git layer (`git2::Error`), by rough class. -/
inductive GitError where
  | notFound
  | ambiguous
  | corrupt
  | shallow
  | generic (code : Nat)
deriving DecidableEq, Repr

/-- Errors produced by a pathspec match call.  With `PATHSPEC_NO_MATCH_ERROR`
set, a plain no-match is reported as an error (`noMatch`); `other` covers any
further match failure. -/
inductive MatchErr where
  | noMatch
  | other (code : Nat)
deriving DecidableEq, Repr

/-- `git2::DiffOptions`: the flags the handler touches, plus the pathspec
list that `DiffOptions::pathspec` appends to. -/
structure DiffOptions where
  include_ignored : Bool
  recurse_ignored_dirs : Bool
  include_untracked : Bool
  recurse_untracked_dirs : Bool
  include_unmodified : Bool
  ignore_filemode : Bool
  ignore_submodules : Bool
  disable_pathspec_match : Bool
  skip_binary_check : Bool
  enable_fast_untracked_dirs : Bool
  include_unreadable : Bool
  force_text : Bool
  pathspecs : List String
deriving DecidableEq, Repr

/-- `DiffOptions::new()`: all flags off, no pathspecs. -/
def DiffOptions.new : DiffOptions :=
  { include_ignored := false
    recurse_ignored_dirs := false
    include_untracked := false
    recurse_untracked_dirs := false
    include_unmodified := false
    ignore_filemode := false
    ignore_submodules := false
    disable_pathspec_match := false
    skip_binary_check := false
    enable_fast_untracked_dirs := false
    include_unreadable := false
    force_text := false
    pathspecs := [] }

/-- The diff options built at lib.rs lines 77-89, before the per-item
pathspec additions. -/
def configuredDiffOpts : DiffOptions :=
  { DiffOptions.new with
    include_ignored := false
    recurse_ignored_dirs := false
    include_untracked := false
    recurse_untracked_dirs := false
    include_unmodified := false
    ignore_filemode := true
    ignore_submodules := true
    disable_pathspec_match := true
    skip_binary_check := true
    enable_fast_untracked_dirs := true
    include_unreadable := false
    force_text := true }

/-- The pathspec match flags used by the handler. -/
structure PathspecFlags where
  no_match_error : Bool
  no_glob : Bool
deriving DecidableEq, Repr

/-- lib.rs line 138: `PATHSPEC_NO_MATCH_ERROR | PATHSPEC_NO_GLOB`. -/
def usedFlags : PathspecFlags :=
  { no_match_error := true, no_glob := true }

/-- A compiled `git2::Pathspec` (compiled from one literal path string). -/
structure Pathspec where
  raw : String
deriving DecidableEq, Repr

/-- The result record attached to items (`LastCommit` in lib.rs). -/
structure LastCommit where
  sha : String
  summary : String
  time : Time
deriving DecidableEq, Repr

/-- An `Arc<LastCommit>`: the payload plus an allocation identity, so that
sharing of one allocation between several items is expressible. -/
structure ArcLastCommit where
  alloc : Nat
  val : LastCommit
deriving DecidableEq, Repr

/-- A bind item: its source path and its extensions entry under the
`LastCommit` typemap key. -/
structure Item where
  path : String
  ext : Option ArcLastCommit
deriving DecidableEq, Repr

/-- Observable actions of one resolve call. -/
inductive Event where
  | fetched (id : Oid)
  | targetTree (id : Oid)
  | targetDiff (parent child : Oid) (opts : DiffOptions)
  | extracted (id : Oid)
  | attached (idx : Nat) (id : Oid)
deriving DecidableEq, Repr

/-- How one call to `handle` ends: `Ok(())`, `Err(e)`, or a Rust panic from
an `unwrap` on a failing value. -/
inductive Outcome where
  | ok
  | err (e : GitError)
  | panicked
deriving DecidableEq, Repr

/-- The `MatchKind` enum of lib.rs lines 140-143. -/
inductive MatchKind where
  | tree (t : Tree)
  | diff (d : Diff)
deriving DecidableEq, Repr

/-- The mutable state threaded through the walk: the bind's items, the active
deque of (item index, compiled pathspec) pairs, the per-call cache, the next
`Arc` allocation identity, and the event trace. -/
structure St where
  items : List Item
  active : List (Nat × Pathspec)
  cache : List (Oid × ArcLastCommit)
  nextAlloc : Nat
  trace : List Event
deriving DecidableEq, Repr

/-- Result of processing one walk entry: continue with a new state, or halt
the whole call with an outcome. -/
inductive StepRes where
  | cont (s : St)
  | halt (o : Outcome) (s : St)
deriving DecidableEq, Repr

/-- The state carried by a step result. -/
def stepSt : StepRes → St
  | .cont s => s
  | .halt _ s => s

/-- The git2 world one call runs against: repository discovery, revwalk
construction and iteration, object access, pathspec compilation and
matching. -/
structure Env where
  discoverOk : Bool
  revwalkOk : Bool
  revparse : String → Except GitError Oid
  pushOk : Oid → Bool
  walk : List (Except GitError Oid)
  findCommit : Oid → Except GitError Commit
  treeOf : Oid → Except GitError Tree
  pathspecNew : String → Except GitError Pathspec
  diffTreeToTree : Tree → Tree → DiffOptions → Except GitError Diff
  matchTree : Pathspec → Tree → PathspecFlags → Except MatchErr Unit
  matchDiff : Pathspec → Diff → PathspecFlags → Except MatchErr Unit

/-- `HashMap::get` on the call-scoped cache. -/
def cacheLookup : List (Oid × ArcLastCommit) → Oid → Option ArcLastCommit
  | [], _ => none
  | (k, a) :: rest, id => if k = id then some a else cacheLookup rest id

/-- Overwrite item `i`'s extensions entry (`item.extensions.insert`). -/
def setExt : List Item → Nat → ArcLastCommit → List Item
  | [], _, _ => []
  | it :: rest, 0, a => { it with ext := some a } :: rest
  | it :: rest, i + 1, a => it :: setExt rest i a

/-- The extensions entry of item `i`, if the index is in range. -/
def itemExt (items : List Item) (i : Nat) : Option ArcLastCommit :=
  match items[i]? with
  | none => none
  | some it => it.ext

/-- Number of `extracted id` events in a trace. -/
def countExtract : List Event → Oid → Nat
  | [], _ => 0
  | .extracted j :: rest, id => (if j = id then 1 else 0) + countExtract rest id
  | _ :: rest, id => countExtract rest id

/-- One pathspec match call against the current match target
(lib.rs lines 153-157). -/
def matchCall (env : Env) (mk : MatchKind) (ps : Pathspec) : Except MatchErr Unit :=
  match mk with
  | .tree t => env.matchTree ps t usedFlags
  | .diff d => env.matchDiff ps d usedFlags

/-- The per-commit matching loop (lib.rs lines 152-179): test each drained
pair against the match target; unmatched pairs are pushed back onto the
active deque; matched pairs get the commit's cached `Arc<LastCommit>`
(creating it on first use; `commit.summary().unwrap()` panics when the
summary is not valid UTF-8) attached, and are dropped from the active set. -/
def matchLoop (env : Env) (c : Commit) (mk : MatchKind) :
    List (Nat × Pathspec) → St → StepRes
  | [], s => .cont s
  | (i, ps) :: rest, s =>
    if (matchCall env mk ps).isOk then
      match cacheLookup s.cache c.cid with
      | some a =>
        matchLoop env c mk rest
          { s with
            items := setExt s.items i a
            trace := s.trace ++ [.attached i c.cid] }
      | none =>
        match c.summary with
        | none => .halt .panicked s
        | some sum =>
          let a : ArcLastCommit :=
            { alloc := s.nextAlloc
              val := { sha := toString c.cid, summary := sum, time := c.time } }
          matchLoop env c mk rest
            { s with
              cache := (c.cid, a) :: s.cache
              nextAlloc := s.nextAlloc + 1
              items := setExt s.items i a
              trace := s.trace ++ [.extracted c.cid, .attached i c.cid] }
    else
      matchLoop env c mk rest { s with active := s.active ++ [(i, ps)] }

/-- The body of the revwalk loop (lib.rs lines 118-180) for one walk entry:
`try!(id)`, `try!(repo.find_commit(id))`, skip merge commits, drain the
active deque, build the match target (full tree for a root commit; otherwise
the diff against the single parent, where `commit.parent(0).unwrap()` panics
if the parent object cannot be loaded, and the two tree fetches and the diff
propagate their errors), then run the matching loop. -/
def processEntry (env : Env) (opts : DiffOptions) (s : St) :
    Except GitError Oid → StepRes
  | .error e => .halt (.err e) s
  | .ok id =>
    let s1 : St := { s with trace := s.trace ++ [.fetched id] }
    match env.findCommit id with
    | .error e => .halt (.err e) s1
    | .ok c =>
      if c.parents.length > 1 then .cont s1
      else
        let remaining := s1.active
        let s2 : St := { s1 with active := [] }
        if c.parents.length = 0 then
          let s3 : St := { s2 with trace := s2.trace ++ [.targetTree c.cid] }
          match env.treeOf c.cid with
          | .error e => .halt (.err e) s3
          | .ok t => matchLoop env c (.tree t) remaining s3
        else
          match c.parents.head? with
          | none => .halt .panicked s2
          | some pid =>
            match env.findCommit pid with
            | .error _ => .halt .panicked s2
            | .ok pc =>
              let s3 : St := { s2 with trace := s2.trace ++ [.targetDiff pid c.cid opts] }
              match env.treeOf pc.cid with
              | .error e => .halt (.err e) s3
              | .ok ta =>
                match env.treeOf c.cid with
                | .error e => .halt (.err e) s3
                | .ok tb =>
                  match env.diffTreeToTree ta tb opts with
                  | .error e => .halt (.err e) s3
                  | .ok d => matchLoop env c (.diff d) remaining s3

/-- The revwalk loop: process entries in order until the walk is exhausted
(`Ok(())`) or a step halts the call.  There is no early exit when the active
set empties. -/
def runWalk (env : Env) (opts : DiffOptions) :
    List (Except GitError Oid) → St → Outcome × St
  | [], s => (.ok, s)
  | e :: rest, s =>
    match processEntry env opts s e with
    | .cont s' => runWalk env opts rest s'
    | .halt o s' => (o, s')

/-- The per-item setup loop (lib.rs lines 93-101): append each item's path
to the diff options' pathspec list and compile a `Pathspec` for it;
`Pathspec::new(..).unwrap()` panics (result `none`) on compilation failure.
Pairs carry the item's index in the bind. -/
def compileItems (env : Env) : List Item → Nat → DiffOptions →
    Option (List (Nat × Pathspec) × DiffOptions)
  | [], _, opts => some ([], opts)
  | it :: rest, i, opts =>
    let opts' : DiffOptions := { opts with pathspecs := opts.pathspecs ++ [it.path] }
    match env.pathspecNew it.path with
    | .error _ => none
    | .ok ps =>
      match compileItems env rest (i + 1) opts' with
      | none => none
      | some (act, opts'') => some ((i, ps) :: act, opts'')

/-- `GitCommit::handle` (lib.rs lines 64-183): discover the repository (soft
failure: succeed with nothing resolved), build diff options and compile all
pathspecs (panic on failure), create the revwalk (panic on failure), resolve
the starting revision (hard error), push it (soft failure: succeed with
nothing resolved), then run the walk.  Returns the outcome, the final items
and the event trace. -/
def handle (env : Env) (revision : String) (bind : List Item) :
    Outcome × List Item × List Event :=
  if env.discoverOk = true then
    match compileItems env bind 0 configuredDiffOpts with
    | none => (.panicked, bind, [])
    | some (active, opts) =>
      if env.revwalkOk = true then
        match env.revparse revision with
        | .error e => (.err e, bind, [])
        | .ok start =>
          if env.pushOk start = true then
            let r := runWalk env opts env.walk
              { items := bind, active := active, cache := [], nextAlloc := 0, trace := [] }
            (r.1, r.2.items, r.2.trace)
          else (.ok, bind, [])
      else (.panicked, bind, [])
  else (.ok, bind, [])

/-! ### Concrete environments used to exercise the definitions -/

/-- A single-item bind. -/
def bindOne : List Item := [{ path := "a.txt", ext := none }]

/-- A two-item bind. -/
def bindTwo : List Item :=
  [{ path := "a.txt", ext := none }, { path := "b.txt", ext := none }]

/-- A repository whose newest commit (id 1, a root commit) touches every
path, while the older commit 2 cannot be loaded (corrupt older history). -/
def envCorruptOld : Env :=
  { discoverOk := true
    revwalkOk := true
    revparse := fun _ => .ok 1
    pushOk := fun _ => true
    walk := [.ok 1, .ok 2]
    findCommit := fun id =>
      if id = 1 then
        .ok { cid := 1, parents := [], summary := some "init",
              time := { seconds := 10, offset := 0 } }
      else .error .corrupt
    treeOf := fun _ => .ok { tid := 1 }
    pathspecNew := fun p => .ok { raw := p }
    diffTreeToTree := fun _ _ _ => .ok { did := 0 }
    matchTree := fun _ _ _ => .ok ()
    matchDiff := fun _ _ _ => .ok () }

/-- A root commit whose summary is not valid UTF-8. -/
def cNoSum : Commit :=
  { cid := 1, parents := [], summary := none, time := { seconds := 0, offset := 0 } }

/-- A repository whose only commit has an undecodable summary and matches
every path. -/
def envBadSummary : Env :=
  { envCorruptOld with
    walk := [.ok 1]
    findCommit := fun id => if id = 1 then .ok cNoSum else .error .corrupt }

/-- A repository whose only commit (id 1) has a single parent (id 5) whose
commit object cannot be loaded. -/
def envBadParent : Env :=
  { envCorruptOld with
    walk := [.ok 1]
    findCommit := fun id =>
      if id = 1 then
        .ok { cid := 1, parents := [5], summary := some "one",
              time := { seconds := 0, offset := 0 } }
      else .error .corrupt }

/-- A repository where pathspec compilation always fails. -/
def envBadPathspec : Env :=
  { envCorruptOld with pathspecNew := fun _ => .error (.generic 1) }

/-- A location with no repository: discovery fails. -/
def envNoRepo : Env :=
  { envCorruptOld with discoverOk := false }

/-- A repository where pushing the starting commit onto the revwalk fails. -/
def envBadPush : Env :=
  { envCorruptOld with pushOk := fun _ => false }

/-- A repository whose starting revision cannot be resolved. -/
def envBadRevision : Env :=
  { envCorruptOld with revparse := fun _ => .error .ambiguous }

/-- The five diff-option flags the spec highlights for the diff match
target. -/
def FlagsConfigured (od : DiffOptions) : Prop :=
  od.ignore_filemode = true ∧ od.ignore_submodules = true ∧
  od.disable_pathspec_match = true ∧ od.skip_binary_check = true ∧
  od.force_text = true

/-- `cid` is the id of a loadable root commit (zero parents). -/
def RootTargetOf (env : Env) (cid : Oid) : Prop :=
  ∃ id c, env.findCommit id = .ok c ∧ c.cid = cid ∧ c.parents = []

/-- `cid` is the id of a loadable commit whose only parent is `p`. -/
def DiffTargetOf (env : Env) (p cid : Oid) : Prop :=
  ∃ id c, env.findCommit id = .ok c ∧ c.cid = cid ∧ c.parents = [p]

/-- `cid` is the id of a loadable commit with at most one parent. -/
def NonMergeOf (env : Env) (cid : Oid) : Prop :=
  ∃ id c, env.findCommit id = .ok c ∧ c.cid = cid ∧ c.parents.length ≤ 1

/-- Soundness of one trace event with respect to the environment: tree
targets belong to root commits, diff targets to single-parent commits and
carry the configured flags, and extraction/attachment concern non-merge
commits only. -/
def EventSound (env : Env) : Event → Prop
  | .fetched _ => True
  | .targetTree cid => RootTargetOf env cid
  | .targetDiff p cc od => DiffTargetOf env p cc ∧ FlagsConfigured od
  | .extracted cid => NonMergeOf env cid
  | .attached _ cid => NonMergeOf env cid

/-- Every match target in the trace has the claimed shape: a full tree for
a root commit, or a diff against the unique parent computed with the
configured options. -/
def TargetsSound (env : Env) (tr : List Event) : Prop :=
  (∀ cid, Event.targetTree cid ∈ tr → RootTargetOf env cid) ∧
  (∀ p cc od, Event.targetDiff p cc od ∈ tr → DiffTargetOf env p cc ∧ FlagsConfigured od)

/-- No path resolved to commit `id` and no match target was built for it. -/
def MergeExcluded (tr : List Event) (id : Oid) : Prop :=
  (∀ i, Event.attached i id ∉ tr) ∧
  Event.targetTree id ∉ tr ∧
  (∀ p od, Event.targetDiff p id od ∉ tr)

/-- Every commit the walk yields was fetched during the call. -/
def AllFetched (env : Env) (tr : List Event) : Prop :=
  ∀ id, Except.ok id ∈ env.walk → Event.fetched id ∈ tr

/-- Metadata extraction happened at most once per commit id, and any two
items attached for the same commit id hold the identical shared value
(same allocation). -/
def SharedCache (items : List Item) (tr : List Event) : Prop :=
  (∀ id, countExtract tr id ≤ 1) ∧
  (∀ i j id a b, Event.attached i id ∈ tr → Event.attached j id ∈ tr →
    itemExt items i = some a → itemExt items j = some b → a = b)

/-- The walk invariant: active and pending indexes are distinct, unattached
and in range; every attachment points at the cached value for its commit
id; and the extraction count per id is exactly one for cached ids and zero
otherwise. -/
structure Inv (s : St) (pending : List (Nat × Pathspec)) : Prop where
  nodup : (s.active.map Prod.fst ++ pending.map Prod.fst).Nodup
  fresh : ∀ p ∈ s.active ++ pending,
    (∀ id, Event.attached p.1 id ∉ s.trace) ∧ p.1 < s.items.length
  attach : ∀ i id, Event.attached i id ∈ s.trace →
    ∃ a, cacheLookup s.cache id = some a ∧ itemExt s.items i = some a
  extractedOnce : ∀ id,
    countExtract s.trace id = if (cacheLookup s.cache id).isSome then 1 else 0

/-- A repository whose commit 2 is a merge (parents 3 and 4); every other
id is a root commit.  The walk visits 1, 2, 3. -/
def envMerge : Env :=
  { envCorruptOld with
    walk := [.ok 1, .ok 2, .ok 3]
    findCommit := fun id =>
      .ok { cid := id, parents := if id = 2 then [3, 4] else [],
            summary := some "c", time := { seconds := 0, offset := 0 } } }

/-- A repository whose tree matcher fails with a non-no-match error for
`a.txt` and succeeds for anything else. -/
def envMixedMatch : Env :=
  { envCorruptOld with
    matchTree := fun ps _ _ => if ps.raw = "a.txt" then .error (.other 3) else .ok () }

/-- A root commit with a decodable summary. -/
def cRoot : Commit :=
  { cid := 1, parents := [], summary := some "one",
    time := { seconds := 0, offset := 0 } }

/-- Fresh state over the two-item bind. -/
def stTwo : St :=
  { items := bindTwo, active := [], cache := [], nextAlloc := 0, trace := [] }

/-- The two-item active set, in bind order. -/
def pairsTwo : List (Nat × Pathspec) :=
  [(0, { raw := "a.txt" }), (1, { raw := "b.txt" })]

/-- A shared value as attached by an earlier (newer) commit. -/
def arcInit : ArcLastCommit :=
  { alloc := 0
    val := { sha := "1", summary := "init", time := { seconds := 10, offset := 0 } } }

/-- A mid-walk state whose single item is already resolved and no longer
active. -/
def stPre : St :=
  { items := [{ path := "a.txt", ext := some arcInit }], active := [],
    cache := [(1, arcInit)], nextAlloc := 1, trace := [] }

/-- State after logging the fetch of commit `id` (the walk body's `s1`). -/
def fetchedSt (s : St) (id : Oid) : St :=
  { s with trace := s.trace ++ [Event.fetched id] }

/-- State after the fetch log and the drain of the active deque (`s2`). -/
def drainedSt (s : St) (id : Oid) : St :=
  { s with active := [], trace := s.trace ++ [Event.fetched id] }

/-- Drained state after logging a full-tree match target (`s3`, root). -/
def rootSt (s : St) (id cid : Oid) : St :=
  { s with
    active := []
    trace := (s.trace ++ [Event.fetched id]) ++ [Event.targetTree cid] }

/-- Drained state after logging a diff match target (`s3`, one parent). -/
def diffSt (s : St) (id pid cid : Oid) (opts : DiffOptions) : St :=
  { s with
    active := []
    trace := (s.trace ++ [Event.fetched id]) ++ [Event.targetDiff pid cid opts] }

/-- A linear history: the walked commit 2 has single parent 1, a root. -/
def envLinear : Env :=
  { envCorruptOld with
    walk := [.ok 2]
    findCommit := fun id =>
      if id = 2 then
        .ok { cid := 2, parents := [1], summary := some "two",
              time := { seconds := 1, offset := 0 } }
      else
        .ok { cid := id, parents := [], summary := some "one",
              time := { seconds := 0, offset := 0 } } }

/-! ### Claims -/

/-- **C1, counterexample.**  The claim says that once every requested path is
resolved no further commit is fetched and a call whose paths all resolve in
newer commits succeeds even if older history is corrupt.  In
`envCorruptOld` the single requested path resolves at the newest commit
(id 1), yet the walk goes on to fetch the corrupt older commit (id 2) and
the call fails with that error instead of succeeding. -/
theorem c1_counterexample :
    (handle envCorruptOld "HEAD" bindOne).1 = .err .corrupt ∧
    Event.attached 0 1 ∈ (handle envCorruptOld "HEAD" bindOne).2.2 ∧
    Event.fetched 2 ∈ (handle envCorruptOld "HEAD" bindOne).2.2 := by
  decide

/-- **C5, counterexample.**  The claim says an undecodable commit summary is
recovered by lossy substitution and never fails the call.  In
`envBadSummary` the matched commit's summary is `none` (not valid UTF-8) and
the call panics on the `summary().unwrap()`. -/
theorem c5_counterexample :
    envBadSummary.findCommit 1 = .ok cNoSum ∧
    cNoSum.summary = none ∧
    (handle envBadSummary "HEAD" bindOne).1 = .panicked :=
  ⟨rfl, rfl, rfl⟩

/-- **C7, counterexample.**  The claim says every commit/tree/diff access
failure during the walk makes the call return that error.  In
`envBadParent` loading the single parent (a commit access) fails and the
call panics (`commit.parent(0).unwrap()`) instead of returning the error. -/
theorem c7_counterexample :
    envBadParent.findCommit 5 = .error .corrupt ∧
    (handle envBadParent "HEAD" bindOne).1 = .panicked :=
  ⟨rfl, rfl⟩

/-- **C9, counterexample.**  The claim says a malformed path spec makes the
call fail with a hard error returned to the caller.  In `envBadPathspec`
compilation fails and the call panics (`Pathspec::new(..).unwrap()`) instead
of returning an error value. -/
theorem c9_counterexample :
    envBadPathspec.pathspecNew "a.txt" = .error (.generic 1) ∧
    handle envBadPathspec "HEAD" bindOne = (.panicked, bindOne, []) :=
  ⟨rfl, rfl⟩

/-- **C6.**  If the repository cannot be discovered, or if pushing the
starting commit onto the revision walker fails, the call returns success
with zero paths resolved and every caller target left untouched. -/
theorem c6_soft_failures (env : Env) (rev : String) (bind : List Item) :
    (env.discoverOk = false → handle env rev bind = (.ok, bind, [])) ∧
    (∀ act opts start,
      env.discoverOk = true →
      compileItems env bind 0 configuredDiffOpts = some (act, opts) →
      env.revwalkOk = true →
      env.revparse rev = .ok start →
      env.pushOk start = false →
      handle env rev bind = (.ok, bind, [])) := by
  constructor
  · intro h
    simp [handle, h]
  · intro act opts start h1 h2 h3 h4 h5
    simp [handle, h1, h2, h3, h4, h5]

/-- **C6, witness.**  Both soft-failure branches realized on concrete
environments. -/
theorem c6_witness :
    handle envNoRepo "HEAD" bindOne = (.ok, bindOne, []) ∧
    handle envBadPush "HEAD" bindOne = (.ok, bindOne, []) := by
  constructor
  · exact (c6_soft_failures envNoRepo "HEAD" bindOne).1 rfl
  · exact (c6_soft_failures envBadPush "HEAD" bindOne).2
      [(0, { raw := "a.txt" })]
      { configuredDiffOpts with pathspecs := ["a.txt"] }
      1 rfl rfl rfl rfl rfl

/-- **C8.**  If the starting revision specifier cannot be resolved to a
commit, the call fails with that hard error before any path is touched: the
items are returned exactly as given and the trace is empty. -/
theorem c8_unresolvable_revision (env : Env) (rev : String) (bind : List Item)
    (act : List (Nat × Pathspec)) (opts : DiffOptions) (e : GitError)
    (h1 : env.discoverOk = true)
    (h2 : compileItems env bind 0 configuredDiffOpts = some (act, opts))
    (h3 : env.revwalkOk = true)
    (h4 : env.revparse rev = .error e) :
    handle env rev bind = (.err e, bind, []) := by
  simp [handle, h1, h2, h3, h4]

/-- **C8, witness.** -/
theorem c8_witness :
    handle envBadRevision "HEAD" bindOne = (.err .ambiguous, bindOne, []) :=
  c8_unresolvable_revision envBadRevision "HEAD" bindOne
    [(0, { raw := "a.txt" })]
    { configuredDiffOpts with pathspecs := ["a.txt"] }
    .ambiguous rfl rfl rfl rfl

/-- **C5, amended.**  A still-active path that matches a commit whose
summary is not decodable (and whose id is not yet cached) makes the call
panic on the `summary().unwrap()`; there is no lossy substitution. -/
theorem c5_amended (env : Env) (c : Commit) (mk : MatchKind) (i : Nat)
    (ps : Pathspec) (rest : List (Nat × Pathspec)) (s : St)
    (hsum : c.summary = none)
    (hmiss : cacheLookup s.cache c.cid = none)
    (hmatch : (matchCall env mk ps).isOk = true) :
    matchLoop env c mk ((i, ps) :: rest) s = .halt .panicked s := by
  simp [matchLoop, hmatch, hmiss, hsum]

/-- **C5, witness.** -/
theorem c5_witness :
    matchLoop envBadSummary cNoSum (.tree { tid := 1 })
      [(0, { raw := "a.txt" })]
      { items := bindOne, active := [], cache := [], nextAlloc := 0, trace := [] }
      = .halt .panicked
          { items := bindOne, active := [], cache := [], nextAlloc := 0, trace := [] } :=
  c5_amended envBadSummary cNoSum (.tree { tid := 1 }) 0
    { raw := "a.txt" } []
    { items := bindOne, active := [], cache := [], nextAlloc := 0, trace := [] }
    rfl rfl rfl

/-- **C9, amended.**  A path whose matcher cannot be compiled aborts the
call before the walk begins with the items untouched, but by panicking
(`unwrap`), not by returning an error value; and compilation of the item
list fails exactly when some item's pathspec fails to compile. -/
theorem c9_amended :
    (∀ env rev bind, env.discoverOk = true →
      compileItems env bind 0 configuredDiffOpts = none →
      handle env rev bind = (.panicked, bind, [])) ∧
    (∀ (env : Env) (bind : List Item) (i : Nat) (opts : DiffOptions),
      compileItems env bind i opts = none ↔
        ∃ it ∈ bind, (env.pathspecNew it.path).isOk = false) := by
  constructor
  · intro env rev bind h1 h2
    simp [handle, h1, h2]
  · intro env bind
    induction bind with
    | nil =>
      intro i opts
      constructor
      · intro h
        exact absurd h (by simp [compileItems])
      · rintro ⟨x, hx, -⟩
        exact absurd hx (List.not_mem_nil x)
    | cons it rest ih =>
      intro i opts
      constructor
      · intro h
        cases hps : env.pathspecNew it.path with
        | error e =>
          exact ⟨it, List.mem_cons_self it rest, by simp [hps, Except.isOk, Except.toBool]⟩
        | ok ps =>
          cases hc : compileItems env rest (i + 1)
              { opts with pathspecs := opts.pathspecs ++ [it.path] } with
          | none =>
            obtain ⟨x, hx, hfail⟩ := (ih (i + 1) _).mp hc
            exact ⟨x, List.mem_cons_of_mem it hx, hfail⟩
          | some r =>
            exfalso
            simp [compileItems, hps, hc] at h
      · rintro ⟨x, hx, hfail⟩
        rcases List.mem_cons.mp hx with rfl | hx'
        · simp only [compileItems]
          cases hps : env.pathspecNew x.path with
          | error e => rfl
          | ok ps => simp [hps, Except.isOk, Except.toBool] at hfail
        · simp only [compileItems]
          cases hps : env.pathspecNew it.path with
          | error e => rfl
          | ok ps =>
            have hnone : compileItems env rest (i + 1)
                { opts with pathspecs := opts.pathspecs ++ [it.path] } = none :=
              (ih (i + 1) _).mpr ⟨x, hx', hfail⟩
            simp [hnone]

/-- **C9, amended witness.** -/
theorem c9_witness :
    handle envBadPathspec "HEAD" bindTwo = (.panicked, bindTwo, []) :=
  c9_amended.1 envBadPathspec "HEAD" bindTwo rfl rfl


/-! ### Helper lemmas -/

theorem matchLoop_trace_mem (env : Env) (c : Commit) (mk : MatchKind) (e0 : Event) :
    ∀ (pairs : List (Nat × Pathspec)) (s : St), e0 ∈ s.trace →
      e0 ∈ (stepSt (matchLoop env c mk pairs s)).trace := by
  intro pairs
  induction pairs with
  | nil =>
    intro s h
    exact h
  | cons p rest ih =>
    intro s h
    obtain ⟨i, ps⟩ := p
    cases hm : (matchCall env mk ps).isOk with
    | false =>
      simp only [matchLoop, hm, Bool.false_eq_true, if_false]
      apply ih
      exact h
    | true =>
      cases hcl : cacheLookup s.cache c.cid with
      | some a =>
        simp only [matchLoop, hm, if_true]
        rw [hcl]
        apply ih
        exact List.mem_append_left _ h
      | none =>
        cases hs : c.summary with
        | none =>
          simp only [matchLoop, hm, if_true]
          rw [hcl]
          simp only [hs]
          exact h
        | some sum =>
          simp only [matchLoop, hm, if_true]
          rw [hcl]
          simp only [hs]
          apply ih
          exact List.mem_append_left _ h

theorem matchLoop_halt_panicked (env : Env) (c : Commit) (mk : MatchKind) :
    ∀ (pairs : List (Nat × Pathspec)) (s : St) (o : Outcome) (s' : St),
      matchLoop env c mk pairs s = .halt o s' → o = .panicked := by
  intro pairs
  induction pairs with
  | nil =>
    intro s o s' h
    exact absurd h (by simp [matchLoop])
  | cons p rest ih =>
    intro s o s' h
    obtain ⟨i, ps⟩ := p
    cases hm : (matchCall env mk ps).isOk with
    | false =>
      simp only [matchLoop, hm, Bool.false_eq_true, if_false] at h
      exact ih _ _ _ h
    | true =>
      cases hcl : cacheLookup s.cache c.cid with
      | some a =>
        simp only [matchLoop, hm, if_true] at h
        rw [hcl] at h
        exact ih _ _ _ h
      | none =>
        cases hs : c.summary with
        | none =>
          simp only [matchLoop, hm, if_true, hcl, hs] at h
          cases h
          rfl
        | some sum =>
          simp only [matchLoop, hm, if_true] at h
          rw [hcl] at h
          simp only [hs] at h
          exact ih _ _ _ h



theorem setExt_length : ∀ (items : List Item) (i : Nat) (a : ArcLastCommit),
    (setExt items i a).length = items.length := by
  intro items
  induction items with
  | nil => intro i a; rfl
  | cons it rest ih =>
    intro i a
    cases i with
    | zero => rfl
    | succ j => simp [setExt, ih]

theorem itemExt_setExt_ne : ∀ (items : List Item) (i j : Nat) (a : ArcLastCommit),
    i ≠ j → itemExt (setExt items j a) i = itemExt items i := by
  intro items
  induction items with
  | nil => intro i j a _; cases j <;> rfl
  | cons it rest ih =>
    intro i j a hne
    cases j with
    | zero =>
      cases i with
      | zero => exact absurd rfl hne
      | succ k => simp [setExt, itemExt]
    | succ m =>
      cases i with
      | zero => simp [setExt, itemExt]
      | succ k =>
        have : k ≠ m := fun h => hne (by rw [h])
        simp only [setExt, itemExt, List.getElem?_cons_succ]
        exact ih k m a this

theorem itemExt_setExt_self : ∀ (items : List Item) (i : Nat) (a : ArcLastCommit),
    i < items.length → itemExt (setExt items i a) i = some a := by
  intro items
  induction items with
  | nil => intro i a h; exact absurd h (by simp)
  | cons it rest ih =>
    intro i a h
    cases i with
    | zero => simp [setExt, itemExt]
    | succ k =>
      simp only [setExt, itemExt, List.getElem?_cons_succ]
      exact ih k a (by simpa using h)

theorem matchLoop_active_mem (env : Env) (c : Commit) (mk : MatchKind) (q : Nat × Pathspec) :
    ∀ (pairs : List (Nat × Pathspec)) (s : St) (s' : St),
      q ∈ s.active → matchLoop env c mk pairs s = .cont s' → q ∈ s'.active := by
  intro pairs
  induction pairs with
  | nil =>
    intro s s' hq h
    cases h
    exact hq
  | cons p rest ih =>
    intro s s' hq h
    obtain ⟨i, ps⟩ := p
    cases hm : (matchCall env mk ps).isOk with
    | false =>
      simp only [matchLoop, hm, Bool.false_eq_true, if_false] at h
      refine ih _ _ ?_ h
      exact List.mem_append_left _ hq
    | true =>
      cases hcl : cacheLookup s.cache c.cid with
      | some a =>
        simp only [matchLoop, hm, if_true, hcl] at h
        refine ih _ _ ?_ h
        exact hq
      | none =>
        cases hs : c.summary with
        | none =>
          simp only [matchLoop, hm, if_true, hcl, hs] at h
          cases h
        | some sum =>
          simp only [matchLoop, hm, if_true, hcl, hs] at h
          refine ih _ _ ?_ h
          exact hq

theorem matchLoop_items_outside (env : Env) (c : Commit) (mk : MatchKind) (i : Nat) :
    ∀ (pairs : List (Nat × Pathspec)) (s : St), i ∉ pairs.map Prod.fst →
      itemExt (stepSt (matchLoop env c mk pairs s)).items i = itemExt s.items i := by
  intro pairs
  induction pairs with
  | nil => intro s _; rfl
  | cons p rest ih =>
    intro s hni
    obtain ⟨j, qs⟩ := p
    have hij : i ≠ j := by
      intro h
      exact hni (by simp [h])
    have hrest : i ∉ rest.map Prod.fst := by
      intro h
      exact hni (by simp [h])
    cases hm : (matchCall env mk qs).isOk with
    | false =>
      simp only [matchLoop, hm, Bool.false_eq_true, if_false]
      exact ih _ hrest
    | true =>
      cases hcl : cacheLookup s.cache c.cid with
      | some a =>
        simp only [matchLoop, hm, if_true]
        rw [hcl]
        rw [ih _ hrest]
        exact itemExt_setExt_ne _ _ _ _ hij
      | none =>
        cases hs : c.summary with
        | none =>
          simp only [matchLoop, hm, if_true]
          rw [hcl]
          simp only [hs]
          rfl
        | some sum =>
          simp only [matchLoop, hm, if_true]
          rw [hcl]
          simp only [hs]
          rw [ih _ hrest]
          exact itemExt_setExt_ne _ _ _ _ hij

theorem matchLoop_active_fst_sub (env : Env) (c : Commit) (mk : MatchKind) (j : Nat) :
    ∀ (pairs : List (Nat × Pathspec)) (s : St),
      j ∈ (stepSt (matchLoop env c mk pairs s)).active.map Prod.fst →
      j ∈ s.active.map Prod.fst ∨ j ∈ pairs.map Prod.fst := by
  intro pairs
  induction pairs with
  | nil =>
    intro s h
    exact Or.inl h
  | cons p rest ih =>
    intro s h
    obtain ⟨i, ps⟩ := p
    cases hm : (matchCall env mk ps).isOk with
    | false =>
      simp only [matchLoop, hm, Bool.false_eq_true, if_false] at h
      rcases ih _ h with h1 | h1
      · rcases List.mem_map.mp h1 with ⟨q, hq, hfst⟩
        rcases List.mem_append.mp hq with hq1 | hq1
        · exact Or.inl (List.mem_map.mpr ⟨q, hq1, hfst⟩)
        · simp at hq1
          subst hq1
          exact Or.inr (by simp [← hfst])
      · exact Or.inr (by simp [h1])
    | true =>
      cases hcl : cacheLookup s.cache c.cid with
      | some a =>
        simp only [matchLoop, hm, if_true, hcl] at h
        rcases ih _ h with h1 | h1
        · exact Or.inl h1
        · exact Or.inr (by simp [h1])
      | none =>
        cases hs : c.summary with
        | none =>
          simp only [matchLoop, hm, if_true, hcl, hs] at h
          exact Or.inl h
        | some sum =>
          simp only [matchLoop, hm, if_true, hcl, hs] at h
          rcases ih _ h with h1 | h1
          · exact Or.inl h1
          · exact Or.inr (by simp [h1])

/-- Case analysis principle for `processEntry` on a successful walk entry:
one hypothesis per leaf of the walk body's control flow. -/
theorem processEntry_rec (env : Env) (opts : DiffOptions) (s : St) (id : Oid)
    (P : StepRes → Prop)
    (hfe : ∀ e, env.findCommit id = .error e → P (.halt (.err e) (fetchedSt s id)))
    (hme : ∀ c, env.findCommit id = .ok c → c.parents.length > 1 →
      P (.cont (fetchedSt s id)))
    (hre : ∀ c e, env.findCommit id = .ok c → c.parents.length = 0 →
      env.treeOf c.cid = .error e → P (.halt (.err e) (rootSt s id c.cid)))
    (hrt : ∀ c t, env.findCommit id = .ok c → c.parents.length = 0 →
      env.treeOf c.cid = .ok t →
      P (matchLoop env c (.tree t) s.active (rootSt s id c.cid)))
    (hpn : ∀ c, env.findCommit id = .ok c → ¬ c.parents.length > 1 →
      ¬ c.parents.length = 0 → c.parents.head? = none →
      P (.halt .panicked (drainedSt s id)))
    (hpe : ∀ c pid e, env.findCommit id = .ok c → ¬ c.parents.length > 1 →
      ¬ c.parents.length = 0 → c.parents.head? = some pid →
      env.findCommit pid = .error e → P (.halt .panicked (drainedSt s id)))
    (hta : ∀ c pid pc e, env.findCommit id = .ok c → ¬ c.parents.length > 1 →
      ¬ c.parents.length = 0 → c.parents.head? = some pid →
      env.findCommit pid = .ok pc → env.treeOf pc.cid = .error e →
      P (.halt (.err e) (diffSt s id pid c.cid opts)))
    (htb : ∀ c pid pc ta e, env.findCommit id = .ok c → ¬ c.parents.length > 1 →
      ¬ c.parents.length = 0 → c.parents.head? = some pid →
      env.findCommit pid = .ok pc → env.treeOf pc.cid = .ok ta →
      env.treeOf c.cid = .error e →
      P (.halt (.err e) (diffSt s id pid c.cid opts)))
    (hdf : ∀ c pid pc ta tb e, env.findCommit id = .ok c → ¬ c.parents.length > 1 →
      ¬ c.parents.length = 0 → c.parents.head? = some pid →
      env.findCommit pid = .ok pc → env.treeOf pc.cid = .ok ta →
      env.treeOf c.cid = .ok tb → env.diffTreeToTree ta tb opts = .error e →
      P (.halt (.err e) (diffSt s id pid c.cid opts)))
    (hdd : ∀ c pid pc ta tb d, env.findCommit id = .ok c → ¬ c.parents.length > 1 →
      ¬ c.parents.length = 0 → c.parents.head? = some pid →
      env.findCommit pid = .ok pc → env.treeOf pc.cid = .ok ta →
      env.treeOf c.cid = .ok tb → env.diffTreeToTree ta tb opts = .ok d →
      P (matchLoop env c (.diff d) s.active (diffSt s id pid c.cid opts))) :
    P (processEntry env opts s (.ok id)) := by
  cases hfc : env.findCommit id with
  | error e =>
    simp only [processEntry, hfc]
    exact hfe e hfc
  | ok c =>
    by_cases hm : c.parents.length > 1
    · simp only [processEntry, hfc]
      rw [if_pos hm]
      exact hme c hfc hm
    · by_cases hroot : c.parents.length = 0
      · cases htr : env.treeOf c.cid with
        | error e =>
          simp only [processEntry, hfc, htr]
          rw [if_neg hm, if_pos hroot]
          exact hre c e hfc hroot htr
        | ok t =>
          simp only [processEntry, hfc, htr]
          rw [if_neg hm, if_pos hroot]
          exact hrt c t hfc hroot htr
      · cases hhd : c.parents.head? with
        | none =>
          simp only [processEntry, hfc, hhd]
          rw [if_neg hm, if_neg hroot]
          exact hpn c hfc hm hroot hhd
        | some pid =>
          cases hfp : env.findCommit pid with
          | error e =>
            simp only [processEntry, hfc, hhd, hfp]
            rw [if_neg hm, if_neg hroot]
            exact hpe c pid e hfc hm hroot hhd hfp
          | ok pc =>
            cases hpt : env.treeOf pc.cid with
            | error e =>
              simp only [processEntry, hfc, hhd, hfp, hpt]
              rw [if_neg hm, if_neg hroot]
              exact hta c pid pc e hfc hm hroot hhd hfp hpt
            | ok ta =>
              cases hct : env.treeOf c.cid with
              | error e =>
                simp only [processEntry, hfc, hhd, hfp, hpt, hct]
                rw [if_neg hm, if_neg hroot]
                exact htb c pid pc ta e hfc hm hroot hhd hfp hpt hct
              | ok tb =>
                cases hdt : env.diffTreeToTree ta tb opts with
                | error e =>
                  simp only [processEntry, hfc, hhd, hfp, hpt, hct, hdt]
                  rw [if_neg hm, if_neg hroot]
                  exact hdf c pid pc ta tb e hfc hm hroot hhd hfp hpt hct hdt
                | ok d =>
                  simp only [processEntry, hfc, hhd, hfp, hpt, hct, hdt]
                  rw [if_neg hm, if_neg hroot]
                  exact hdd c pid pc ta tb d hfc hm hroot hhd hfp hpt hct hdt



theorem matchLoop_trace_mem_cont (env : Env) (c : Commit) (mk : MatchKind)
    (pairs : List (Nat × Pathspec)) (sArg s' : St)
    (h : matchLoop env c mk pairs sArg = .cont s') (e0 : Event)
    (he : e0 ∈ sArg.trace) : e0 ∈ s'.trace := by
  have hmem := matchLoop_trace_mem env c mk e0 pairs sArg he
  rw [h] at hmem
  exact hmem

theorem processEntry_trace_mem (env : Env) (opts : DiffOptions) (e0 : Event) (s : St) :
    ∀ entry, e0 ∈ s.trace → e0 ∈ (stepSt (processEntry env opts s entry)).trace := by
  intro entry h
  cases entry with
  | error e => exact h
  | ok id =>
    have h1 : e0 ∈ s.trace ++ [Event.fetched id] := List.mem_append_left _ h
    refine processEntry_rec env opts s id
      (fun r => e0 ∈ (stepSt r).trace) ?_ ?_ ?_ ?_ ?_ ?_ ?_ ?_ ?_ ?_
    · intro e _; exact h1
    · intro c _ _; exact h1
    · intro c e _ _ _; exact List.mem_append_left _ h1
    · intro c t _ _ _
      exact matchLoop_trace_mem _ _ _ _ _ _ (List.mem_append_left _ h1)
    · intro c _ _ _ _; exact h1
    · intro c pid e _ _ _ _ _; exact h1
    · intro c pid pc e _ _ _ _ _ _; exact List.mem_append_left _ h1
    · intro c pid pc ta e _ _ _ _ _ _ _; exact List.mem_append_left _ h1
    · intro c pid pc ta tb e _ _ _ _ _ _ _ _; exact List.mem_append_left _ h1
    · intro c pid pc ta tb d _ _ _ _ _ _ _ _
      exact matchLoop_trace_mem _ _ _ _ _ _ (List.mem_append_left _ h1)

theorem processEntry_halt_not_ok (env : Env) (opts : DiffOptions) (s : St)
    (entry : Except GitError Oid) (o : Outcome) (s' : St) :
    processEntry env opts s entry = .halt o s' → o ≠ .ok := by
  cases entry with
  | error e =>
    intro h
    cases h
    simp
  | ok id =>
    refine processEntry_rec env opts s id
      (fun r => r = .halt o s' → o ≠ .ok) ?_ ?_ ?_ ?_ ?_ ?_ ?_ ?_ ?_ ?_
    · intro e _ h; cases h; simp
    · intro c _ _ h; cases h
    · intro c e _ _ _ h; cases h; simp
    · intro c t _ _ _ h
      have hp := matchLoop_halt_panicked env c (.tree t) s.active _ o s' h
      subst hp; simp
    · intro c _ _ _ _ h; cases h; simp
    · intro c pid e _ _ _ _ _ h; cases h; simp
    · intro c pid pc e _ _ _ _ _ _ h; cases h; simp
    · intro c pid pc ta e _ _ _ _ _ _ _ h; cases h; simp
    · intro c pid pc ta tb e _ _ _ _ _ _ _ _ h; cases h; simp
    · intro c pid pc ta tb d _ _ _ _ _ _ _ _ h
      have hp := matchLoop_halt_panicked env c (.diff d) s.active _ o s' h
      subst hp; simp

theorem processEntry_fetched (env : Env) (opts : DiffOptions) (s : St) (id : Oid) :
    Event.fetched id ∈ (stepSt (processEntry env opts s (.ok id))).trace := by
  refine processEntry_rec env opts s id
    (fun r => Event.fetched id ∈ (stepSt r).trace) ?_ ?_ ?_ ?_ ?_ ?_ ?_ ?_ ?_ ?_
  · intro e _; simp [fetchedSt, stepSt]
  · intro c _ _; simp [fetchedSt, stepSt]
  · intro c e _ _ _; simp [rootSt, stepSt]
  · intro c t _ _ _
    apply matchLoop_trace_mem
    simp [rootSt]
  · intro c _ _ _ _; simp [drainedSt, stepSt]
  · intro c pid e _ _ _ _ _; simp [drainedSt, stepSt]
  · intro c pid pc e _ _ _ _ _ _; simp [diffSt, stepSt]
  · intro c pid pc ta e _ _ _ _ _ _ _; simp [diffSt, stepSt]
  · intro c pid pc ta tb e _ _ _ _ _ _ _ _; simp [diffSt, stepSt]
  · intro c pid pc ta tb d _ _ _ _ _ _ _ _
    apply matchLoop_trace_mem
    simp [diffSt]

theorem processEntry_items_outside (env : Env) (opts : DiffOptions) (s : St)
    (entry : Except GitError Oid) (i : Nat)
    (hi : i ∉ s.active.map Prod.fst) :
    itemExt (stepSt (processEntry env opts s entry)).items i = itemExt s.items i := by
  cases entry with
  | error e => rfl
  | ok id =>
    refine processEntry_rec env opts s id
      (fun r => itemExt (stepSt r).items i = itemExt s.items i) ?_ ?_ ?_ ?_ ?_ ?_ ?_ ?_ ?_ ?_
    · intro e _; rfl
    · intro c _ _; rfl
    · intro c e _ _ _; rfl
    · intro c t _ _ _
      exact matchLoop_items_outside env c (.tree t) i s.active _ hi
    · intro c _ _ _ _; rfl
    · intro c pid e _ _ _ _ _; rfl
    · intro c pid pc e _ _ _ _ _ _; rfl
    · intro c pid pc ta e _ _ _ _ _ _ _; rfl
    · intro c pid pc ta tb e _ _ _ _ _ _ _ _; rfl
    · intro c pid pc ta tb d _ _ _ _ _ _ _ _
      exact matchLoop_items_outside env c (.diff d) i s.active _ hi

theorem processEntry_active_fst_sub (env : Env) (opts : DiffOptions) (s : St)
    (entry : Except GitError Oid) (j : Nat) :
    j ∈ (stepSt (processEntry env opts s entry)).active.map Prod.fst →
    j ∈ s.active.map Prod.fst := by
  cases entry with
  | error e => exact fun h => h
  | ok id =>
    refine processEntry_rec env opts s id
      (fun r => j ∈ (stepSt r).active.map Prod.fst → j ∈ s.active.map Prod.fst)
      ?_ ?_ ?_ ?_ ?_ ?_ ?_ ?_ ?_ ?_
    · intro e _ h; exact h
    · intro c _ _ h; exact h
    · intro c e _ _ _ h; exact absurd h (by simp [rootSt, stepSt])
    · intro c t _ _ _ h
      rcases matchLoop_active_fst_sub env c (.tree t) j s.active _ h with h1 | h1
      · exact absurd h1 (by simp [rootSt, stepSt])
      · exact h1
    · intro c _ _ _ _ h; exact absurd h (by simp [drainedSt, stepSt])
    · intro c pid e _ _ _ _ _ h; exact absurd h (by simp [drainedSt, stepSt])
    · intro c pid pc e _ _ _ _ _ _ h; exact absurd h (by simp [diffSt, stepSt])
    · intro c pid pc ta e _ _ _ _ _ _ _ h; exact absurd h (by simp [diffSt, stepSt])
    · intro c pid pc ta tb e _ _ _ _ _ _ _ _ h; exact absurd h (by simp [diffSt, stepSt])
    · intro c pid pc ta tb d _ _ _ _ _ _ _ _ h
      rcases matchLoop_active_fst_sub env c (.diff d) j s.active _ h with h1 | h1
      · exact absurd h1 (by simp [diffSt, stepSt])
      · exact h1

theorem runWalk_trace_mem (env : Env) (opts : DiffOptions) (e0 : Event) :
    ∀ (entries : List (Except GitError Oid)) (s : St), e0 ∈ s.trace →
      e0 ∈ (runWalk env opts entries s).2.trace := by
  intro entries
  induction entries with
  | nil => intro s h; exact h
  | cons entry rest ih =>
    intro s h
    have hp := processEntry_trace_mem env opts e0 s entry h
    cases hq : processEntry env opts s entry with
    | cont s1 =>
      rw [hq] at hp
      simp only [runWalk, hq]
      exact ih s1 hp
    | halt o s1 =>
      rw [hq] at hp
      simp only [runWalk, hq]
      exact hp

theorem runWalk_items_keep (env : Env) (opts : DiffOptions) :
    ∀ (entries : List (Except GitError Oid)) (s : St) (i : Nat),
      i ∉ s.active.map Prod.fst →
      itemExt (runWalk env opts entries s).2.items i = itemExt s.items i := by
  intro entries
  induction entries with
  | nil => intro s i _; rfl
  | cons entry rest ih =>
    intro s i hi
    have hout := processEntry_items_outside env opts s entry i hi
    cases hq : processEntry env opts s entry with
    | cont s1 =>
      rw [hq] at hout
      have hact : i ∉ s1.active.map Prod.fst := by
        intro hmem
        apply hi
        refine processEntry_active_fst_sub env opts s entry i ?_
        rw [hq]
        exact hmem
      simp only [runWalk, hq]
      rw [ih s1 i hact]
      exact hout
    | halt o s1 =>
      rw [hq] at hout
      simp only [runWalk, hq]
      exact hout

theorem runWalk_err_absorb (env : Env) (opts : DiffOptions) :
    ∀ (entries : List (Except GitError Oid)) (s : St) (e : GitError),
      (runWalk env opts entries s).1 = .err e →
      ∀ rest, runWalk env opts (entries ++ rest) s = runWalk env opts entries s := by
  intro entries
  induction entries with
  | nil =>
    intro s e h rest
    exact absurd h (by simp [runWalk])
  | cons entry tail ih =>
    intro s e h rest
    cases hq : processEntry env opts s entry with
    | cont s1 =>
      simp only [List.cons_append, runWalk, hq]
      simp only [runWalk, hq] at h
      exact ih s1 e h rest
    | halt o s1 =>
      simp only [List.cons_append, runWalk, hq]

theorem runWalk_ok_all_fetched (env : Env) (opts : DiffOptions) :
    ∀ (entries : List (Except GitError Oid)) (s s' : St),
      runWalk env opts entries s = (.ok, s') →
      ∀ id, Except.ok id ∈ entries → Event.fetched id ∈ s'.trace := by
  intro entries
  induction entries with
  | nil => intro s s' _ id hid; exact absurd hid (List.not_mem_nil _)
  | cons entry rest ih =>
    intro s s' h id hid
    cases hq : processEntry env opts s entry with
    | cont s1 =>
      simp only [runWalk, hq] at h
      rcases List.mem_cons.mp hid with heq | htail
      · subst heq
        have hf := processEntry_fetched env opts s id
        rw [hq] at hf
        have hmem := runWalk_trace_mem env opts (Event.fetched id) rest s1 hf
        rw [h] at hmem
        exact hmem
      · exact ih s1 s' h id htail
    | halt o s1 =>
      simp only [runWalk, hq] at h
      have ho : o = .ok := congrArg Prod.fst h
      exact absurd ho (processEntry_halt_not_ok env opts s entry o s1 hq)



theorem handle_run (env : Env) (rev : String) (bind : List Item)
    (act : List (Nat × Pathspec)) (opts : DiffOptions) (start : Oid)
    (h1 : env.discoverOk = true)
    (h2 : compileItems env bind 0 configuredDiffOpts = some (act, opts))
    (h3 : env.revwalkOk = true)
    (h4 : env.revparse rev = .ok start)
    (h5 : env.pushOk start = true) :
    handle env rev bind =
      ((runWalk env opts env.walk
          { items := bind, active := act, cache := [], nextAlloc := 0, trace := [] }).1,
       (runWalk env opts env.walk
          { items := bind, active := act, cache := [], nextAlloc := 0, trace := [] }).2.items,
       (runWalk env opts env.walk
          { items := bind, active := act, cache := [], nextAlloc := 0, trace := [] }).2.trace) := by
  simp [handle, h1, h2, h3, h4, h5]

/-- **C1, amended.**  The walk has no early exit: whenever the call reaches
the walk and ends with `Ok(())`, every commit id the revwalk yields has been
fetched, whether or not all paths were already resolved earlier. -/
theorem c1_amended (env : Env) (rev : String) (bind : List Item)
    (act : List (Nat × Pathspec)) (opts : DiffOptions) (start : Oid)
    (h1 : env.discoverOk = true)
    (h2 : compileItems env bind 0 configuredDiffOpts = some (act, opts))
    (h3 : env.revwalkOk = true)
    (h4 : env.revparse rev = .ok start)
    (h5 : env.pushOk start = true)
    (h6 : (handle env rev bind).1 = .ok) :
    AllFetched env (handle env rev bind).2.2 := by
  have hr := handle_run env rev bind act opts start h1 h2 h3 h4 h5
  rw [hr] at h6
  rw [hr]
  intro id hid
  have hrw : runWalk env opts env.walk
      { items := bind, active := act, cache := [], nextAlloc := 0, trace := [] } =
      (.ok, (runWalk env opts env.walk
        { items := bind, active := act, cache := [], nextAlloc := 0, trace := [] }).2) := by
    rw [← h6]
  exact runWalk_ok_all_fetched env opts env.walk _ _ hrw id hid

/-- **C1, amended witness.** -/
theorem c1_witness : AllFetched envMerge ((handle envMerge "HEAD" bindOne).2.2) :=
  c1_amended envMerge "HEAD" bindOne [(0, { raw := "a.txt" })]
    { configuredDiffOpts with pathspecs := ["a.txt"] } 1 rfl rfl rfl rfl rfl rfl

/-- **C7, amended.**  When a `try!`-propagated access failure (walk entry
error, commit lookup, tree fetch, or diff computation) aborts the walk with
an error, appending further (older) history changes nothing — the walk
stops at the failure — and every item resolved before the failing commit
(hence no longer active) keeps its attached result.  (Failure to load the
single parent's commit object panics instead of returning the error, per
the counterexample.) -/
theorem c7_amended (env : Env) (opts : DiffOptions)
    (entries : List (Except GitError Oid)) (s : St) (e : GitError)
    (h : (runWalk env opts entries s).1 = .err e) :
    (∀ rest, runWalk env opts (entries ++ rest) s = runWalk env opts entries s) ∧
    (∀ i a, i ∉ s.active.map Prod.fst → itemExt s.items i = some a →
      itemExt (runWalk env opts entries s).2.items i = some a) := by
  constructor
  · exact runWalk_err_absorb env opts entries s e h
  · intro i a hi ha
    rw [runWalk_items_keep env opts entries s i hi]
    exact ha

/-- **C7, amended witness.** -/
theorem c7_witness :
    runWalk envCorruptOld configuredDiffOpts ([.error .corrupt] ++ [.ok 9]) stPre =
      runWalk envCorruptOld configuredDiffOpts [.error .corrupt] stPre ∧
    itemExt (runWalk envCorruptOld configuredDiffOpts [.error .corrupt] stPre).2.items 0 =
      some arcInit := by
  have h := c7_amended envCorruptOld configuredDiffOpts [.error .corrupt] stPre .corrupt rfl
  exact ⟨h.1 [.ok 9], h.2 0 arcInit (by decide) (by decide)⟩

theorem matchLoop_pair_sem (env : Env) (c : Commit) (mk : MatchKind) :
    ∀ (pairs : List (Nat × Pathspec)) (s s' : St),
      matchLoop env c mk pairs s = .cont s' →
      ∀ i ps, (i, ps) ∈ pairs →
        ((matchCall env mk ps).isOk = false → (i, ps) ∈ s'.active) ∧
        ((matchCall env mk ps).isOk = true → Event.attached i c.cid ∈ s'.trace) := by
  intro pairs
  induction pairs with
  | nil =>
    intro s s' _ i ps hmem
    exact absurd hmem (List.not_mem_nil _)
  | cons p rest ih =>
    intro s s' h i ps hmem
    obtain ⟨j, qs⟩ := p
    cases hm : (matchCall env mk qs).isOk with
    | false =>
      simp only [matchLoop, hm, Bool.false_eq_true, if_false] at h
      rcases List.mem_cons.mp hmem with heq | htail
      · cases heq
        constructor
        · intro _
          exact matchLoop_active_mem env c mk (i, ps) rest _ s'
            (List.mem_append_right _ (List.mem_cons_self _ _)) h
        · intro htrue
          rw [hm] at htrue
          simp at htrue
      · exact ih _ s' h i ps htail
    | true =>
      cases hcl : cacheLookup s.cache c.cid with
      | some a =>
        simp only [matchLoop, hm, if_true, hcl] at h
        rcases List.mem_cons.mp hmem with heq | htail
        · cases heq
          constructor
          · intro hfalse
            rw [hm] at hfalse
            simp at hfalse
          · intro _
            exact matchLoop_trace_mem_cont env c mk rest _ s' h _ (by simp)
        · exact ih _ s' h i ps htail
      | none =>
        cases hs : c.summary with
        | none =>
          simp only [matchLoop, hm, if_true, hcl, hs] at h
          cases h
        | some sum =>
          simp only [matchLoop, hm, if_true, hcl, hs] at h
          rcases List.mem_cons.mp hmem with heq | htail
          · cases heq
            constructor
            · intro hfalse
              rw [hm] at hfalse
              simp at hfalse
            · intro _
              exact matchLoop_trace_mem_cont env c mk rest _ s' h _ (by simp)
          · exact ih _ s' h i ps htail

/-- **C10.**  In the matching loop, a still-active pair is resolved exactly
when its pathspec match call returns a non-error result; any match error —
no-match or otherwise — carries the pair forward into the rebuilt active
set, and no match error ever halts the loop (the only halt is the
summary-decoding panic). -/
theorem c10_match_semantics (env : Env) (c : Commit) (mk : MatchKind)
    (pairs : List (Nat × Pathspec)) (s : St) :
    (∀ o s', matchLoop env c mk pairs s = .halt o s' → o = .panicked) ∧
    (∀ s', matchLoop env c mk pairs s = .cont s' →
      ∀ i ps, (i, ps) ∈ pairs →
        ((matchCall env mk ps).isOk = false → (i, ps) ∈ s'.active) ∧
        ((matchCall env mk ps).isOk = true → Event.attached i c.cid ∈ s'.trace)) :=
  ⟨fun o s' h => matchLoop_halt_panicked env c mk pairs s o s' h,
   fun s' h i ps hmem => matchLoop_pair_sem env c mk pairs s s' h i ps hmem⟩

/-- **C10, witness.**  A non-no-match error (`MatchErr.other 3`) on `a.txt`
carries the pair forward while `b.txt` matches and is attached. -/
theorem c10_witness :
    (0, ({ raw := "a.txt" } : Pathspec)) ∈
      (stepSt (matchLoop envMixedMatch cRoot (.tree { tid := 1 }) pairsTwo stTwo)).active ∧
    Event.attached 1 1 ∈
      (stepSt (matchLoop envMixedMatch cRoot (.tree { tid := 1 }) pairsTwo stTwo)).trace := by
  have h := (c10_match_semantics envMixedMatch cRoot (.tree { tid := 1 }) pairsTwo stTwo).2
    (stepSt (matchLoop envMixedMatch cRoot (.tree { tid := 1 }) pairsTwo stTwo)) rfl
  constructor
  · exact (h 0 { raw := "a.txt" } (by decide)).1 rfl
  · exact (h 1 { raw := "b.txt" } (by decide)).2 rfl

theorem list_single_of (l : List Oid) (x : Oid) (h1 : ¬ l.length > 1)
    (h2 : ¬ l.length = 0) (h3 : l.head? = some x) : l = [x] := by
  cases l with
  | nil => exact absurd rfl h2
  | cons y t =>
    cases t with
    | nil =>
      cases h3
      rfl
    | cons z t2 =>
      exact absurd (by simp) h1

theorem matchLoop_sound (env : Env) (c : Commit) (mk : MatchKind)
    (hc : ∃ id, env.findCommit id = .ok c) (hp : c.parents.length ≤ 1) :
    ∀ (pairs : List (Nat × Pathspec)) (s : St),
      (∀ e ∈ s.trace, EventSound env e) →
      ∀ e ∈ (stepSt (matchLoop env c mk pairs s)).trace, EventSound env e := by
  have hnm : NonMergeOf env c.cid := by
    obtain ⟨id, hid⟩ := hc
    exact ⟨id, c, hid, rfl, hp⟩
  intro pairs
  induction pairs with
  | nil => intro s hs; exact hs
  | cons p rest ih =>
    intro s hs
    obtain ⟨i, ps⟩ := p
    cases hm : (matchCall env mk ps).isOk with
    | false =>
      simp only [matchLoop, hm, Bool.false_eq_true, if_false]
      exact ih _ hs
    | true =>
      cases hcl : cacheLookup s.cache c.cid with
      | some a =>
        simp only [matchLoop, hm, if_true, hcl]
        apply ih
        intro e he
        rcases List.mem_append.mp he with h1 | h1
        · exact hs e h1
        · simp only [List.mem_singleton] at h1
          subst h1
          exact hnm
      | none =>
        cases hsum : c.summary with
        | none =>
          simp only [matchLoop, hm, if_true, hcl, hsum]
          exact hs
        | some sum =>
          simp only [matchLoop, hm, if_true, hcl, hsum]
          apply ih
          intro e he
          rcases List.mem_append.mp he with h1 | h1
          · exact hs e h1
          · rcases List.mem_cons.mp h1 with h2 | h2
            · subst h2
              exact hnm
            · simp only [List.mem_singleton] at h2
              subst h2
              exact hnm

theorem processEntry_sound (env : Env) (opts : DiffOptions) (hf : FlagsConfigured opts)
    (s : St) (entry : Except GitError Oid)
    (hs : ∀ e ∈ s.trace, EventSound env e) :
    ∀ e ∈ (stepSt (processEntry env opts s entry)).trace, EventSound env e := by
  cases entry with
  | error e => exact hs
  | ok id =>
    have hfetch : ∀ e ∈ s.trace ++ [Event.fetched id], EventSound env e := by
      intro e he
      rcases List.mem_append.mp he with h1 | h1
      · exact hs e h1
      · simp only [List.mem_singleton] at h1
        subst h1
        trivial
    refine processEntry_rec env opts s id
      (fun r => ∀ e ∈ (stepSt r).trace, EventSound env e) ?_ ?_ ?_ ?_ ?_ ?_ ?_ ?_ ?_ ?_
    · intro e _; exact hfetch
    · intro c _ _; exact hfetch
    · intro c e hfc hroot _
      intro e0 he0
      rcases List.mem_append.mp he0 with h1 | h1
      · exact hfetch e0 h1
      · simp only [List.mem_singleton] at h1
        subst h1
        exact ⟨id, c, hfc, rfl, List.length_eq_zero.mp hroot⟩
    · intro c t hfc hroot _
      apply matchLoop_sound env c (.tree t) ⟨id, hfc⟩ (by simp [hroot])
      intro e0 he0
      rcases List.mem_append.mp he0 with h1 | h1
      · exact hfetch e0 h1
      · simp only [List.mem_singleton] at h1
        subst h1
        exact ⟨id, c, hfc, rfl, List.length_eq_zero.mp hroot⟩
    · intro c _ _ _ _; exact hfetch
    · intro c pid e _ _ _ _ _; exact hfetch
    · intro c pid pc e hfc hm hroot hhd _ _
      intro e0 he0
      rcases List.mem_append.mp he0 with h1 | h1
      · exact hfetch e0 h1
      · simp only [List.mem_singleton] at h1
        subst h1
        exact ⟨⟨id, c, hfc, rfl, list_single_of c.parents pid hm hroot hhd⟩, hf⟩
    · intro c pid pc ta e hfc hm hroot hhd _ _ _
      intro e0 he0
      rcases List.mem_append.mp he0 with h1 | h1
      · exact hfetch e0 h1
      · simp only [List.mem_singleton] at h1
        subst h1
        exact ⟨⟨id, c, hfc, rfl, list_single_of c.parents pid hm hroot hhd⟩, hf⟩
    · intro c pid pc ta tb e hfc hm hroot hhd _ _ _ _
      intro e0 he0
      rcases List.mem_append.mp he0 with h1 | h1
      · exact hfetch e0 h1
      · simp only [List.mem_singleton] at h1
        subst h1
        exact ⟨⟨id, c, hfc, rfl, list_single_of c.parents pid hm hroot hhd⟩, hf⟩
    · intro c pid pc ta tb d hfc hm hroot hhd _ _ _ _
      apply matchLoop_sound env c (.diff d) ⟨id, hfc⟩ (Nat.le_of_not_lt hm)
      intro e0 he0
      rcases List.mem_append.mp he0 with h1 | h1
      · exact hfetch e0 h1
      · simp only [List.mem_singleton] at h1
        subst h1
        exact ⟨⟨id, c, hfc, rfl, list_single_of c.parents pid hm hroot hhd⟩, hf⟩

theorem runWalk_sound (env : Env) (opts : DiffOptions) (hf : FlagsConfigured opts) :
    ∀ (entries : List (Except GitError Oid)) (s : St),
      (∀ e ∈ s.trace, EventSound env e) →
      ∀ e ∈ (runWalk env opts entries s).2.trace, EventSound env e := by
  intro entries
  induction entries with
  | nil => intro s hs; exact hs
  | cons entry rest ih =>
    intro s hs
    have hstep := processEntry_sound env opts hf s entry hs
    cases hq : processEntry env opts s entry with
    | cont s1 =>
      rw [hq] at hstep
      simp only [runWalk, hq]
      exact ih s1 hstep
    | halt o s1 =>
      rw [hq] at hstep
      simp only [runWalk, hq]
      exact hstep

theorem compileItems_flags (env : Env) :
    ∀ (bind : List Item) (i : Nat) (opts : DiffOptions)
      (act : List (Nat × Pathspec)) (opts' : DiffOptions),
      compileItems env bind i opts = some (act, opts') →
      FlagsConfigured opts → FlagsConfigured opts' := by
  intro bind
  induction bind with
  | nil =>
    intro i opts act opts' h hf
    simp only [compileItems] at h
    cases h
    exact hf
  | cons it rest ih =>
    intro i opts act opts' h hf
    cases hps : env.pathspecNew it.path with
    | error e => simp [compileItems, hps] at h
    | ok ps =>
      cases hc : compileItems env rest (i + 1)
          { opts with pathspecs := opts.pathspecs ++ [it.path] } with
      | none => simp [compileItems, hps, hc] at h
      | some r =>
        obtain ⟨act2, opts2⟩ := r
        simp only [compileItems, hps, hc] at h
        cases h
        exact ih (i + 1) _ _ _ hc hf

theorem handle_events_sound (env : Env) (rev : String) (bind : List Item) :
    ∀ e ∈ (handle env rev bind).2.2, EventSound env e := by
  by_cases h1 : env.discoverOk = true
  · cases h2 : compileItems env bind 0 configuredDiffOpts with
    | none => simp [handle, h1, h2]
    | some r =>
      obtain ⟨act, opts⟩ := r
      by_cases h3 : env.revwalkOk = true
      · cases h4 : env.revparse rev with
        | error e => simp [handle, h1, h2, h3, h4]
        | ok start =>
          by_cases h5 : env.pushOk start = true
          · have hr := handle_run env rev bind act opts start h1 h2 h3 h4 h5
            rw [hr]
            have hf : FlagsConfigured opts :=
              compileItems_flags env bind 0 configuredDiffOpts act opts h2
                ⟨rfl, rfl, rfl, rfl, rfl⟩
            exact runWalk_sound env opts hf env.walk _
              (by intro e he; exact absurd he (List.not_mem_nil _))
          · simp [handle, h1, h2, h3, h4, h5]
      · simp [handle, h1, h2, h3]
  · simp [handle, h1]



/-- **C2.**  In every resolve call, every full-tree match target belongs to
a commit with zero parents, and every diff match target is the diff against
the commit's single parent, computed with options that ignore mode-bit
changes, ignore submodules, disable pathspec glob expansion, skip binary
checks, and force text handling. -/
theorem c2_match_targets (env : Env) (rev : String) (bind : List Item) :
    TargetsSound env (handle env rev bind).2.2 := by
  constructor
  · intro cid hmem
    exact handle_events_sound env rev bind _ hmem
  · intro p cc od hmem
    exact handle_events_sound env rev bind _ hmem

/-- **C2, witness.**  On the linear history, the diff target of commit 2 is
against its single parent 1 and carries the configured options. -/
theorem c2_witness :
    DiffTargetOf envLinear 1 2 ∧
    FlagsConfigured { configuredDiffOpts with pathspecs := ["a.txt"] } :=
  (c2_match_targets envLinear "HEAD" bindOne).2 1 2
    { configuredDiffOpts with pathspecs := ["a.txt"] } (by decide)

/-- **C3.**  No commit with more than one parent ever has a match target
built for it, and no path ever resolves (is attached) to it. -/
theorem c3_merge_exclusion (env : Env) (rev : String) (bind : List Item)
    (id : Oid) (c : Commit)
    (hWF : ∀ id' c', env.findCommit id' = .ok c' → c'.cid = id')
    (hfind : env.findCommit id = .ok c)
    (hmerge : c.parents.length > 1) :
    MergeExcluded ((handle env rev bind).2.2) id := by
  have key : ∀ c', env.findCommit id = .ok c' → c'.parents.length ≤ 1 → False := by
    intro c' h1 h2
    rw [hfind] at h1
    cases h1
    omega
  refine ⟨?_, ?_, ?_⟩
  · intro i hmem
    have hsnd : NonMergeOf env id := handle_events_sound env rev bind _ hmem
    obtain ⟨id', c', h1, h2, h3⟩ := hsnd
    have hid : id' = id := by
      rw [← h2]
      exact (hWF id' c' h1).symm
    subst hid
    exact key c' h1 h3
  · intro hmem
    have hsnd : RootTargetOf env id := handle_events_sound env rev bind _ hmem
    obtain ⟨id', c', h1, h2, h3⟩ := hsnd
    have hid : id' = id := by
      rw [← h2]
      exact (hWF id' c' h1).symm
    subst hid
    exact key c' h1 (by simp [h3])
  · intro p od hmem
    have hsnd : DiffTargetOf env p id ∧ FlagsConfigured od :=
      handle_events_sound env rev bind _ hmem
    obtain ⟨⟨id', c', h1, h2, h3⟩, -⟩ := hsnd
    have hid : id' = id := by
      rw [← h2]
      exact (hWF id' c' h1).symm
    subst hid
    exact key c' h1 (by simp [h3])

/-- **C3, witness.**  In `envMerge`, commit 2 is a merge and is excluded. -/
theorem c3_witness : MergeExcluded ((handle envMerge "HEAD" bindOne).2.2) 2 := by
  refine c3_merge_exclusion envMerge "HEAD" bindOne 2
    { cid := 2, parents := [3, 4], summary := some "c",
      time := { seconds := 0, offset := 0 } }
    ?_ rfl (by decide)
  intro id' c' h
  have h2 : envMerge.findCommit id' = Except.ok
      { cid := id'
        parents := if id' = 2 then [3, 4] else []
        summary := some "c"
        time := { seconds := 0, offset := 0 } } := rfl
  rw [h2] at h
  cases h
  rfl

theorem countExtract_append (t u : List Event) (id : Oid) :
    countExtract (t ++ u) id = countExtract t id + countExtract u id := by
  induction t with
  | nil => simp [countExtract]
  | cons e rest ih =>
    cases e <;> (simp [countExtract, ih]; try omega)

theorem countExtract_zero (id : Oid) :
    ∀ (t : List Event), (∀ e ∈ t, ∀ id', e ≠ Event.extracted id') →
      countExtract t id = 0 := by
  intro t
  induction t with
  | nil => intro _; rfl
  | cons e rest ih =>
    intro h
    have hrest := ih (fun e' hm id' => h e' (List.mem_cons_of_mem _ hm) id')
    cases e with
    | extracted j => exact absurd rfl (h _ (List.mem_cons_self _ _) j)
    | fetched j => simpa [countExtract] using hrest
    | targetTree j => simpa [countExtract] using hrest
    | targetDiff p cc od => simpa [countExtract] using hrest
    | attached i j => simpa [countExtract] using hrest

/-- Appending events that are neither attachments nor extractions preserves
the walk invariant. -/
theorem Inv_neutral (s : St) (pend : List (Nat × Pathspec)) (t : List Event)
    (hInv : Inv s pend)
    (ht : ∀ e ∈ t, (∀ i id, e ≠ Event.attached i id) ∧ (∀ id, e ≠ Event.extracted id)) :
    Inv { s with trace := s.trace ++ t } pend := by
  constructor
  · exact hInv.nodup
  · intro q hq
    have hold := hInv.fresh q hq
    refine ⟨?_, hold.2⟩
    intro id hmem
    rcases List.mem_append.mp hmem with h1 | h1
    · exact hold.1 id h1
    · exact (ht _ h1).1 q.1 id rfl
  · intro j id hmem
    rcases List.mem_append.mp hmem with h1 | h1
    · exact hInv.attach j id h1
    · exact absurd rfl ((ht _ h1).1 j id)
  · intro id
    rw [countExtract_append, countExtract_zero id t (fun e hm id' => (ht e hm).2 id')]
    exact hInv.extractedOnce id

/-- Draining the active deque into the pending list preserves the walk
invariant. -/
theorem Inv_drain (s : St) (hInv : Inv s []) :
    Inv { s with active := [] } s.active := by
  constructor
  · simpa using hInv.nodup
  · intro q hq
    exact hInv.fresh q (by simpa using hq)
  · exact hInv.attach
  · exact hInv.extractedOnce



theorem matchLoop_inv (env : Env) (c : Commit) (mk : MatchKind) :
    ∀ (pairs : List (Nat × Pathspec)) (s : St), Inv s pairs →
      (∀ s', matchLoop env c mk pairs s = .cont s' → Inv s' []) ∧
      (∀ o s', matchLoop env c mk pairs s = .halt o s' → ∃ pend, Inv s' pend) := by
  intro pairs
  induction pairs with
  | nil =>
    intro s hInv
    constructor
    · intro s' h
      cases h
      exact hInv
    · intro o s' h
      exact absurd h (by simp [matchLoop])
  | cons p rest ih =>
    intro s hInv
    obtain ⟨i, ps⟩ := p
    have hfresh := hInv.fresh (i, ps) (by simp)
    have hnd : (s.active.map Prod.fst ++ i :: rest.map Prod.fst).Nodup := by
      simpa using hInv.nodup
    have hN := List.nodup_append.mp hnd
    have hi_rest : i ∉ rest.map Prod.fst := (List.nodup_cons.mp hN.2.1).1
    have hi_act : i ∉ s.active.map Prod.fst :=
      fun hmem => hN.2.2 hmem (List.mem_cons_self _ _)
    cases hm : (matchCall env mk ps).isOk with
    | false =>
      have hInvA : Inv { s with active := s.active ++ [(i, ps)] } rest := by
        constructor
        · simpa [List.append_assoc] using hInv.nodup
        · intro q hq
          apply hInv.fresh
          have hq' : q ∈ (s.active ++ [(i, ps)]) ++ rest := hq
          rcases List.mem_append.mp hq' with h1 | h1
          · rcases List.mem_append.mp h1 with h2 | h2
            · exact List.mem_append_left _ h2
            · simp only [List.mem_singleton] at h2
              subst h2
              exact List.mem_append_right _ (List.mem_cons_self _ _)
          · exact List.mem_append_right _ (List.mem_cons_of_mem _ h1)
        · exact hInv.attach
        · exact hInv.extractedOnce
      have hrec := ih _ hInvA
      constructor
      · intro s' h
        simp only [matchLoop, hm, Bool.false_eq_true, if_false] at h
        exact hrec.1 s' h
      · intro o s' h
        simp only [matchLoop, hm, Bool.false_eq_true, if_false] at h
        exact hrec.2 o s' h
    | true =>
      cases hcl : cacheLookup s.cache c.cid with
      | some a =>
        have hInvB : Inv { s with
            items := setExt s.items i a
            trace := s.trace ++ [Event.attached i c.cid] } rest := by
          constructor
          · refine List.nodup_append.mpr ⟨hN.1, (List.nodup_cons.mp hN.2.1).2, ?_⟩
            intro x hx1 hx2
            exact hN.2.2 hx1 (List.mem_cons_of_mem _ hx2)
          · intro q hq
            have hq' : q ∈ s.active ++ rest := hq
            have hqmem : q ∈ s.active ++ (i, ps) :: rest := by
              rcases List.mem_append.mp hq' with h1 | h1
              · exact List.mem_append_left _ h1
              · exact List.mem_append_right _ (List.mem_cons_of_mem _ h1)
            have hold := hInv.fresh q hqmem
            have hqne : q.1 ≠ i := by
              intro hEq
              rcases List.mem_append.mp hq' with h1 | h1
              · exact hi_act (by rw [← hEq]; exact List.mem_map.mpr ⟨q, h1, rfl⟩)
              · exact hi_rest (by rw [← hEq]; exact List.mem_map.mpr ⟨q, h1, rfl⟩)
            constructor
            · intro id hmem
              rcases List.mem_append.mp hmem with h1 | h1
              · exact hold.1 id h1
              · simp only [List.mem_singleton, Event.attached.injEq] at h1
                exact hqne h1.1
            · simpa [setExt_length] using hold.2
          · intro j id hmem
            rcases List.mem_append.mp hmem with h1 | h1
            · obtain ⟨a', hl, he⟩ := hInv.attach j id h1
              refine ⟨a', hl, ?_⟩
              have hji : j ≠ i := by
                intro hEq
                subst hEq
                exact hfresh.1 id h1
              rw [itemExt_setExt_ne s.items j i a hji]
              exact he
            · simp only [List.mem_singleton, Event.attached.injEq] at h1
              obtain ⟨h1a, h1b⟩ := h1
              subst h1a
              subst h1b
              exact ⟨a, hcl, itemExt_setExt_self s.items j a hfresh.2⟩
          · intro id
            rw [countExtract_append]
            simp only [countExtract]
            rw [Nat.add_zero]
            exact hInv.extractedOnce id
        have hrec := ih _ hInvB
        constructor
        · intro s' h
          simp only [matchLoop, hm, if_true, hcl] at h
          exact hrec.1 s' h
        · intro o s' h
          simp only [matchLoop, hm, if_true, hcl] at h
          exact hrec.2 o s' h
      | none =>
        cases hsum : c.summary with
        | none =>
          constructor
          · intro s' h
            simp only [matchLoop, hm, if_true, hcl, hsum] at h
            exact absurd h (by simp)
          · intro o s' h
            simp only [matchLoop, hm, if_true, hcl, hsum] at h
            cases h
            exact ⟨(i, ps) :: rest, hInv⟩
        | some sum =>
          have hInvC : Inv { s with
              items := setExt s.items i
                { alloc := s.nextAlloc
                  val := { sha := toString c.cid, summary := sum, time := c.time } }
              cache := (c.cid,
                { alloc := s.nextAlloc
                  val := { sha := toString c.cid, summary := sum, time := c.time } }) :: s.cache
              nextAlloc := s.nextAlloc + 1
              trace := s.trace ++ [Event.extracted c.cid, Event.attached i c.cid] } rest := by
            constructor
            · refine List.nodup_append.mpr ⟨hN.1, (List.nodup_cons.mp hN.2.1).2, ?_⟩
              intro x hx1 hx2
              exact hN.2.2 hx1 (List.mem_cons_of_mem _ hx2)
            · intro q hq
              have hq' : q ∈ s.active ++ rest := hq
              have hqmem : q ∈ s.active ++ (i, ps) :: rest := by
                rcases List.mem_append.mp hq' with h1 | h1
                · exact List.mem_append_left _ h1
                · exact List.mem_append_right _ (List.mem_cons_of_mem _ h1)
              have hold := hInv.fresh q hqmem
              have hqne : q.1 ≠ i := by
                intro hEq
                rcases List.mem_append.mp hq' with h1 | h1
                · exact hi_act (by rw [← hEq]; exact List.mem_map.mpr ⟨q, h1, rfl⟩)
                · exact hi_rest (by rw [← hEq]; exact List.mem_map.mpr ⟨q, h1, rfl⟩)
              constructor
              · intro id hmem
                rcases List.mem_append.mp hmem with h1 | h1
                · exact hold.1 id h1
                · rcases List.mem_cons.mp h1 with h2 | h2
                  · exact Event.noConfusion h2
                  · simp only [List.mem_singleton, Event.attached.injEq] at h2
                    exact hqne h2.1
              · simpa [setExt_length] using hold.2
            · intro j id hmem
              rcases List.mem_append.mp hmem with h1 | h1
              · obtain ⟨a', hl, he⟩ := hInv.attach j id h1
                have hcidne : ¬ c.cid = id := by
                  intro hEq
                  rw [← hEq] at hl
                  rw [hcl] at hl
                  exact Option.noConfusion hl
                refine ⟨a', ?_, ?_⟩
                · simp only [cacheLookup, if_neg hcidne]
                  exact hl
                · have hji : j ≠ i := by
                    intro hEq
                    subst hEq
                    exact hfresh.1 id h1
                  rw [itemExt_setExt_ne s.items j i _ hji]
                  exact he
              · rcases List.mem_cons.mp h1 with h2 | h2
                · exact Event.noConfusion h2
                · simp only [List.mem_singleton, Event.attached.injEq] at h2
                  obtain ⟨h2a, h2b⟩ := h2
                  subst h2a
                  subst h2b
                  refine ⟨_, ?_, itemExt_setExt_self s.items j _ hfresh.2⟩
                  simp [cacheLookup]
            · intro id
              rw [countExtract_append]
              by_cases hcid : c.cid = id
              · subst hcid
                have h0 : countExtract s.trace c.cid = 0 := by
                  rw [hInv.extractedOnce c.cid, hcl]
                  rfl
                rw [h0]
                simp [countExtract, cacheLookup]
              · have := hInv.extractedOnce id
                simp only [countExtract, hcid, if_false]
                rw [Nat.zero_add, Nat.add_zero]
                rw [this]
                simp only [cacheLookup, if_neg hcid]
          have hrec := ih _ hInvC
          constructor
          · intro s' h
            simp only [matchLoop, hm, if_true, hcl, hsum] at h
            exact hrec.1 s' h
          · intro o s' h
            simp only [matchLoop, hm, if_true, hcl, hsum] at h
            exact hrec.2 o s' h



theorem processEntry_inv (env : Env) (opts : DiffOptions) (s : St)
    (entry : Except GitError Oid) (hInv : Inv s []) :
    (∀ s', processEntry env opts s entry = .cont s' → Inv s' []) ∧
    (∀ o s', processEntry env opts s entry = .halt o s' → ∃ pend, Inv s' pend) := by
  have hneutral : ∀ (t : List Event),
      (∀ e ∈ t, (∀ i id, e ≠ Event.attached i id) ∧ (∀ id, e ≠ Event.extracted id)) →
      Inv { s with active := [], trace := s.trace ++ t } s.active := by
    intro t ht
    exact Inv_neutral { s with active := [] } s.active t (Inv_drain s hInv) ht
  cases entry with
  | error e =>
    constructor
    · intro s' h
      exact absurd h (by simp [processEntry])
    · intro o s' h
      cases h
      exact ⟨[], hInv⟩
  | ok id =>
    have hfetchInv : Inv (fetchedSt s id) [] :=
      Inv_neutral s [] [Event.fetched id] hInv (by simp)
    have hdrainInv : Inv (drainedSt s id) s.active :=
      hneutral [Event.fetched id] (by simp)
    have hrootInv : ∀ cid, Inv (rootSt s id cid) s.active := by
      intro cid
      have := hneutral [Event.fetched id, Event.targetTree cid] (by simp)
      simpa [rootSt, List.append_assoc] using this
    have hdiffInv : ∀ pid cid, Inv (diffSt s id pid cid opts) s.active := by
      intro pid cid
      have := hneutral [Event.fetched id, Event.targetDiff pid cid opts] (by simp)
      simpa [diffSt, List.append_assoc] using this
    refine processEntry_rec env opts s id
      (fun r => (∀ s', r = .cont s' → Inv s' []) ∧
        (∀ o s', r = .halt o s' → ∃ pend, Inv s' pend)) ?_ ?_ ?_ ?_ ?_ ?_ ?_ ?_ ?_ ?_
    · intro e _
      constructor
      · intro s' h; exact absurd h (by simp)
      · intro o s' h; cases h; exact ⟨[], hfetchInv⟩
    · intro c _ _
      constructor
      · intro s' h; cases h; exact hfetchInv
      · intro o s' h; exact absurd h (by simp)
    · intro c e _ _ _
      constructor
      · intro s' h; exact absurd h (by simp)
      · intro o s' h; cases h; exact ⟨s.active, hrootInv c.cid⟩
    · intro c t _ _ _
      exact matchLoop_inv env c (.tree t) s.active (rootSt s id c.cid) (hrootInv c.cid)
    · intro c _ _ _ _
      constructor
      · intro s' h; exact absurd h (by simp)
      · intro o s' h; cases h; exact ⟨s.active, hdrainInv⟩
    · intro c pid e _ _ _ _ _
      constructor
      · intro s' h; exact absurd h (by simp)
      · intro o s' h; cases h; exact ⟨s.active, hdrainInv⟩
    · intro c pid pc e _ _ _ _ _ _
      constructor
      · intro s' h; exact absurd h (by simp)
      · intro o s' h; cases h; exact ⟨s.active, hdiffInv pid c.cid⟩
    · intro c pid pc ta e _ _ _ _ _ _ _
      constructor
      · intro s' h; exact absurd h (by simp)
      · intro o s' h; cases h; exact ⟨s.active, hdiffInv pid c.cid⟩
    · intro c pid pc ta tb e _ _ _ _ _ _ _ _
      constructor
      · intro s' h; exact absurd h (by simp)
      · intro o s' h; cases h; exact ⟨s.active, hdiffInv pid c.cid⟩
    · intro c pid pc ta tb d _ _ _ _ _ _ _ _
      exact matchLoop_inv env c (.diff d) s.active (diffSt s id pid c.cid opts)
        (hdiffInv pid c.cid)

theorem runWalk_inv (env : Env) (opts : DiffOptions) :
    ∀ (entries : List (Except GitError Oid)) (s : St), Inv s [] →
      ∃ pend, Inv (runWalk env opts entries s).2 pend := by
  intro entries
  induction entries with
  | nil => intro s h; exact ⟨[], h⟩
  | cons entry rest ih =>
    intro s h
    have hpe := processEntry_inv env opts s entry h
    cases hq : processEntry env opts s entry with
    | cont s1 =>
      simp only [runWalk, hq]
      exact ih s1 (hpe.1 s1 hq)
    | halt o s1 =>
      simp only [runWalk, hq]
      exact hpe.2 o s1 hq

theorem compileItems_fst (env : Env) :
    ∀ (bind : List Item) (i : Nat) (opts : DiffOptions)
      (act : List (Nat × Pathspec)) (opts' : DiffOptions),
      compileItems env bind i opts = some (act, opts') →
      act.map Prod.fst = List.range' i bind.length := by
  intro bind
  induction bind with
  | nil =>
    intro i opts act opts' h
    simp only [compileItems] at h
    cases h
    rfl
  | cons it rest ih =>
    intro i opts act opts' h
    cases hps : env.pathspecNew it.path with
    | error e => simp [compileItems, hps] at h
    | ok ps =>
      cases hc : compileItems env rest (i + 1)
          { opts with pathspecs := opts.pathspecs ++ [it.path] } with
      | none => simp [compileItems, hps, hc] at h
      | some r =>
        obtain ⟨act2, opts2⟩ := r
        simp only [compileItems, hps, hc] at h
        cases h
        have hrec := ih (i + 1) _ _ _ hc
        simp [List.range'_succ, hrec]

/-- The state the walk starts from satisfies the invariant. -/
theorem Inv_init (env : Env) (bind : List Item)
    (act : List (Nat × Pathspec)) (opts' : DiffOptions)
    (h : compileItems env bind 0 configuredDiffOpts = some (act, opts')) :
    Inv { items := bind, active := act, cache := [], nextAlloc := 0, trace := [] } [] := by
  have hfst := compileItems_fst env bind 0 configuredDiffOpts act opts' h
  constructor
  · simpa [hfst] using List.nodup_range' 0 bind.length
  · intro p hp
    constructor
    · intro id hmem
      exact absurd hmem (List.not_mem_nil _)
    · have hmem : p.1 ∈ act.map Prod.fst :=
        List.mem_map.mpr ⟨p, by simpa using hp, rfl⟩
      rw [hfst] at hmem
      have := List.mem_range'_1.mp hmem
      simpa using this.2
  · intro j id hmem
    exact absurd hmem (List.not_mem_nil _)
  · intro id
    rfl

/-- **C4.**  In every resolve call, commit metadata is extracted at most
once per commit id, and any two items attached for the same commit id hold
the identical shared value. -/
theorem c4_cache_sharing (env : Env) (rev : String) (bind : List Item) :
    SharedCache (handle env rev bind).2.1 (handle env rev bind).2.2 := by
  have hempty : ∀ (items : List Item), SharedCache items [] := by
    intro items
    constructor
    · intro id
      simp [countExtract]
    · intro i j id a b hi hj
      exact absurd hi (List.not_mem_nil _)
  by_cases h1 : env.discoverOk = true
  · cases h2 : compileItems env bind 0 configuredDiffOpts with
    | none =>
      have : handle env rev bind = (.panicked, bind, []) := by simp [handle, h1, h2]
      rw [this]
      exact hempty bind
    | some r =>
      obtain ⟨act, opts⟩ := r
      by_cases h3 : env.revwalkOk = true
      · cases h4 : env.revparse rev with
        | error e =>
          have : handle env rev bind = (.err e, bind, []) := by simp [handle, h1, h2, h3, h4]
          rw [this]
          exact hempty bind
        | ok start =>
          by_cases h5 : env.pushOk start = true
          · have hr := handle_run env rev bind act opts start h1 h2 h3 h4 h5
            rw [hr]
            obtain ⟨pend, hI⟩ := runWalk_inv env opts env.walk
              { items := bind, active := act, cache := [], nextAlloc := 0, trace := [] }
              (Inv_init env bind act opts h2)
            constructor
            · intro id
              rw [hI.extractedOnce id]
              split <;> simp
            · intro i j id a b hi hj ha hb
              obtain ⟨a', hla, hia⟩ := hI.attach i id hi
              obtain ⟨b', hlb, hib⟩ := hI.attach j id hj
              have hea : a = a' := Option.some.inj (ha.symm.trans hia)
              have heb : b = b' := Option.some.inj (hb.symm.trans hib)
              have hab : a' = b' := Option.some.inj (hla.symm.trans hlb)
              rw [hea, hab, ← heb]
          · have : handle env rev bind = (.ok, bind, []) := by simp [handle, h1, h2, h3, h4, h5]
            rw [this]
            exact hempty bind
      · have : handle env rev bind = (.panicked, bind, []) := by simp [handle, h1, h2, h3]
        rw [this]
        exact hempty bind
  · have : handle env rev bind = (.ok, bind, []) := by simp [handle, h1]
    rw [this]
    exact hempty bind

/-- **C4, witness.**  Two paths resolving to the same commit share one
value and one extraction. -/
theorem c4_witness :
    SharedCache (handle envCorruptOld "HEAD" bindTwo).2.1
      (handle envCorruptOld "HEAD" bindTwo).2.2 :=
  c4_cache_sharing envCorruptOld "HEAD" bindTwo

end DiecastGit
